import Mathlib

/-!
Verification of the mtlchmm forward-backward smoothing engine
(`mtlchmm/model.py`).

Numbers are modelled as rationals (the source computes in float32; the
claims under check are structural identities, guards on exact zeroes, and
index bookkeeping, all of which are exact). A probability vector is a
`List ℚ`, a matrix a `List (List ℚ)` in row-major order. Values that may
be NaN/Inf on the Python side are modelled as `Option ℚ` with `none` for
the non-finite values.
-/

namespace Mtlchmm

abbrev Vec := List ℚ
abbrev Mat := List (List ℚ)

/-- Dot product of two vectors (`numpy.dot` on 1-d arrays). -/
def dot (u v : Vec) : ℚ := (List.zipWith (fun a b => a * b) u v).sum

/-- Elementwise product (`numpy.multiply`). -/
def hadamard (u v : Vec) : Vec := List.zipWith (fun a b => a * b) u v

/-- Matrix-vector product (`M.dot(v)` for a 2-d `M`). -/
def matVec (M : Mat) (v : Vec) : Vec := M.map (fun r => dot r v)

/-- Matrix transposition (`numpy .T`) on row-major lists of rows. -/
def transposeM : Mat → Mat
  | [] => []
  | [r] => r.map (fun x => [x])
  | r :: r2 :: rs => List.zipWith (fun x c => x :: c) r (transposeM (r2 :: rs))

/-- `model.py` `normalize(v)`: divide by the sum when it is positive,
otherwise return `v` unchanged. -/
def normalize (v : Vec) : Vec :=
  if 0 < v.sum then v.map (fun x => x / v.sum) else v

/-- Binary maximum on ℚ, kept kernel-computable (equal to `max`,
see `qmax_eq_max`). -/
def qmax (a b : ℚ) : ℚ := if a ≤ b then b else a

/-- Maximum entry of the matrix (`time_series.max()`), i.e. the numpy
maximum over the flattened entries; 0 only as the junk value on an empty
matrix, where numpy would raise. -/
def entriesMax (ts : List Vec) : ℚ :=
  match ts.flatten with
  | [] => 0
  | x :: xs => xs.foldl qmax x

/-- Forward recursion body of `forward_backward`: given the previous
forward message `f` and the remaining observation rows, emit the forward
messages, starting with `f` itself
(`forward[t] = normalize(time_series[t] * Mt.dot(forward[t-1]))`). -/
def forwardAux (Mt : Mat) (f : Vec) : List Vec → List Vec
  | [] => [f]
  | r :: rs => f :: forwardAux Mt (normalize (hadamard r (matVec Mt f))) rs

/-- Forward messages of `forward_backward`: `forward[0] = time_series[0]`
and then `forwardAux` over the remaining rows. -/
def forwardList (Mt : Mat) : List Vec → List Vec
  | [] => []
  | r :: rs => forwardAux Mt r rs

/-- Backward messages of `forward_backward`:
`backward[n_steps-1] = ones(n_labels)` and, walking `t` down,
`backward[t-1] = normalize(M.dot(time_series[t] * backward[t]))`. -/
def backwardList (M : Mat) (L : ℕ) : List Vec → List Vec
  | [] => []
  | [_] => [List.replicate L 1]
  | _ :: r1 :: rs =>
    normalize (matVec M (hadamard r1 ((backwardList M L (r1 :: rs)).headI)))
      :: backwardList M L (r1 :: rs)

/-- Belief row normalization of `forward_backward`: `Z = belief.sum(axis=1)`,
then `Z[Z == 0] = 1` and `belief /= Z`, i.e. each row is divided by its sum
with a zero sum replaced by the divisor 1. -/
def rowNormalizeSafe (v : Vec) : Vec :=
  v.map (fun x => x / (if v.sum = 0 then 1 else v.sum))

/-- `model.py` `forward_backward` on one pixel's time series (rows are time
steps, columns class labels), with the globals made explicit: `M` is
`transition_matrix`, `transposeM M` is `transition_matrix_t`, and `L` is
`n_labels` (the length of `label_ones`). If the maximum entry is 0 the
transposed input is returned unchanged; otherwise the belief
`forward * backward` is row-normalized (zero-sum rows kept) and returned
transposed. -/
def forward_backward (M : Mat) (L : ℕ) (ts : List Vec) : Mat :=
  if entriesMax ts = 0 then transposeM ts
  else
    transposeM
      ((List.zipWith hadamard (forwardList (transposeM M) ts) (backwardList M L ts)).map
        rowNormalizeSafe)

/-- `ModelHMM._transition_matrix`, scalar branch: fill an `L × L` matrix
with the prior `p` and overwrite the diagonal with `1 - p`. -/
def transition_matrix_scalar (L : ℕ) (p : ℚ) : Mat :=
  (List.range L).map (fun i => (List.range L).map (fun j => if i = j then 1 - p else p))

/-- `ModelHMM._transition_matrix`: when `transition_prior` is an ndarray it
is taken as the transition matrix verbatim, otherwise the scalar
construction is used. `L` is `n_labels`. -/
def transitionMatrixSelect (L : ℕ) (tp : Mat ⊕ ℚ) : Mat :=
  match tp with
  | Sum.inl m => m
  | Sum.inr p => transition_matrix_scalar L p

/-- A raster value as read from disk: `none` stands for the non-finite
float values (NaN or Inf), `some q` for a finite value. -/
def cleanValue : Option ℚ → ℚ
  | none => 0
  | some q => q

/-- One band plane of a window: rows of possibly non-finite values. -/
abbrev Plane := List (List (Option ℚ))

/-- `raster_tools` window read: an image is its list of band planes and a
read with `bands2open = k` returns the first `k` band planes. -/
def readWindow (img : List Plane) (bands2open : ℕ) : List Plane :=
  img.take bands2open

/-- `ModelHMM._block_func` per-step load (model.py lines 261-276): the
window is read with `bands2open = self.n_jobs` band planes — not
`n_labels` — and every NaN/Inf entry is replaced by 0. -/
def loadStepSlab (img : List Plane) (n_jobs : ℕ) : List (List (List ℚ)) :=
  (readWindow img n_jobs).map (fun plane => plane.map (fun row => row.map cleanValue))

/-- Maximum of a nonempty flattened slab (`step_array.max()`). -/
def slabMax (slab : List (List (List ℚ))) : ℚ :=
  match (slab.map List.flatten).flatten with
  | [] => 0
  | x :: xs => xs.foldl qmax x

/-- `block_max` accumulation of `_block_func`: starts at 0 and takes the
running maximum against each step slab's maximum. -/
def blockMax (slabs : List (List (List (List ℚ)))) : ℚ :=
  slabs.foldl (fun acc s => qmax acc (slabMax s)) 0

/-- Observable events in the per-tile body of `ModelHMM._block_func`, in
program order: window reads per time step, the pool smoothing dispatch,
band writes (per step and 1-based output band), and the creation of the
`hmm_<i>_<j>.txt` block tracker file. -/
inductive TileEvent
  | readStep (step : ℕ)
  | smoothPixels
  | writeBand (step : ℕ) (band : ℕ)
  | createMarker
deriving DecidableEq, Repr

/-- The band writes `_block_func` performs for one tile: with
`assign_class` a single band-1 write per time step, otherwise one write
per class layer, bands `1..n_labels`. -/
def tileWrites (assign_class : Bool) (n_steps n_labels : ℕ) : List TileEvent :=
  (List.range n_steps).flatMap (fun step =>
    if assign_class then [TileEvent.writeBand step 1]
    else (List.range n_labels).map (fun layer => TileEvent.writeBand step (layer + 1)))

/-- Event trace of one tile's turn in `_block_func`:
if the block tracker file exists the loop body `continue`s immediately;
otherwise all time steps are read, and if the accumulated `block_max`
is 0 the body `continue`s with nothing written; otherwise the pool smooths
the pixels, all bands are written, and the tracker file is created last. -/
def processTile (markerExists : Bool) (n_steps n_labels : ℕ) (block_max : ℚ)
    (assign_class : Bool) : List TileEvent :=
  if markerExists then []
  else
    ((List.range n_steps).map TileEvent.readStep) ++
      (if block_max = 0 then []
       else
         TileEvent.smoothPixels ::
           (tileWrites assign_class n_steps n_labels ++ [TileEvent.createMarker]))

/-- `numpy.argmax` on a 1-d array: index of the first occurrence of the
maximum (0 as the junk value on an empty array, where numpy raises). -/
def argmaxAux : List ℚ → ℕ → ℕ → ℚ → ℕ
  | [], _, best, _ => best
  | x :: xs, i, best, bv =>
    if bv < x then argmaxAux xs (i + 1) i x else argmaxAux xs (i + 1) best bv

/-- `hmm_sub.argmax(axis=0)` at one pixel: first index of the maximum of
the pixel's label column. -/
def np_argmax : List ℚ → ℕ
  | [] => 0
  | x :: xs => argmaxAux xs 1 0 x

/-- The `enumerate(self.class_list)` remapping loop of `_block_func` at one
pixel with argmax `a`: `predictions` starts at 0 (`np.zeros(..., 'uint8')`)
and each matching class index stores its class code cast to uint8
(reduction modulo 256). -/
def applyClassListAux (a : ℕ) : List ℤ → ℕ → ℤ → ℤ
  | [], _, acc => acc
  | c :: cs, i, acc =>
    applyClassListAux a cs (i + 1) (if a = i then c % 256 else acc)

/-- `predictions` value at one pixel after the whole `class_list` loop. -/
def applyClassList (class_list : List ℤ) (a : ℕ) : ℤ :=
  applyClassListAux a class_list 0 0

/-- Value written for one pixel when `assign_class` is set
(model.py lines 325-342): if `class_list` is a Python `list`
(modelled `some cl`) the argmax index is remapped through the uint8
`predictions` array; otherwise (`None`, tuple, ndarray, ... — modelled
`none`) the raw argmax index itself is written. -/
def assignedValue (class_list : Option (List ℤ)) (beliefPix : List ℚ) : ℤ :=
  match class_list with
  | some cl => applyClassList cl (np_argmax beliefPix)
  | none => (np_argmax beliefPix : ℤ)

/-- Concrete 3-label transition matrix with scalar prior 1/10, for
instantiating theorems. -/
def exM : Mat := transition_matrix_scalar 3 (1 / 10)

/-- Concrete 2-step, 3-label pixel time series with a positive maximum. -/
def exTs : List Vec := [[1, 0, 0], [0, 1, 0]]

/-- Concrete all-zero 2-step, 3-label pixel time series. -/
def zeroTs : List Vec := [[0, 0, 0], [0, 0, 0]]

/-- Concrete 3-band, 1x1-window image holding a NaN/Inf in its second
band, for instantiating the tile-loading theorems. -/
def exImg : List Plane := [[[some 1]], [[none]], [[some 2]]]

/-! ### Helper lemmas -/

lemma getD_map_range {α : Type} (f : ℕ → α) (d : α) (n i : ℕ) (h : i < n) :
    ((List.range n).map f).getD i d = f i := by
  rw [List.getD_eq_getElem _ _ (by simpa using h)]
  simp

lemma sum_map_range_ite_notin (a b : ℚ) (i n : ℕ) (h : n ≤ i) :
    ((List.range n).map (fun j => if i = j then a else b)).sum = n * b := by
  induction n with
  | zero => simp
  | succ m ih =>
    have hm : i ≠ m := by omega
    rw [List.range_succ, List.map_append, List.sum_append, ih (by omega)]
    simp [hm]
    ring

lemma sum_map_range_ite_mem (a b : ℚ) (i n : ℕ) (h : i < n) :
    ((List.range n).map (fun j => if i = j then a else b)).sum = a + (n - 1 : ℕ) * b := by
  induction n with
  | zero => omega
  | succ m ih =>
    rw [List.range_succ, List.map_append, List.sum_append]
    rcases Nat.lt_succ_iff_lt_or_eq.mp h with h' | h'
    · have hm : i ≠ m := by omega
      have h1 : 1 ≤ m := by omega
      rw [ih h']
      simp [hm]
      rw [Nat.cast_sub h1]
      push_cast
      ring
    · subst h'
      rw [sum_map_range_ite_notin a b i i le_rfl]
      simp
      ring

/-! ### C3: the transition matrix built from a scalar prior -/

/-- C3 (corrected): with a scalar prior `p`, the transition matrix has
diagonal `1 - p` and all off-diagonal entries `p`, but each row sums to
`1 + (L - 2) * p`, which equals 1 only in the two-label case `L = 2`. -/
theorem C3_transition_matrix_scalar (L : ℕ) (p : ℚ) (hL : 2 ≤ L) (hp0 : 0 < p)
    (hp1 : p < 1) :
    (transition_matrix_scalar L p).length = L ∧
    (∀ i, i < L → ((transition_matrix_scalar L p).getD i []).length = L) ∧
    (∀ i, i < L → ((transition_matrix_scalar L p).getD i []).getD i 0 = 1 - p) ∧
    (∀ i j, i < L → j < L → i ≠ j →
      ((transition_matrix_scalar L p).getD i []).getD j 0 = p) ∧
    (∀ i, i < L →
      ((transition_matrix_scalar L p).getD i []).sum = 1 + ((L : ℚ) - 2) * p) := by
  have hrow : ∀ i, i < L → (transition_matrix_scalar L p).getD i [] =
      (List.range L).map (fun j => if i = j then 1 - p else p) := by
    intro i hi
    exact getD_map_range _ [] L i hi
  refine ⟨by simp [transition_matrix_scalar], ?_, ?_, ?_, ?_⟩
  · intro i hi
    rw [hrow i hi]
    simp
  · intro i hi
    rw [hrow i hi, getD_map_range _ 0 L i hi]
    simp
  · intro i j hi hj hij
    rw [hrow i hi, getD_map_range _ 0 L j hj]
    simp [hij]
  · intro i hi
    rw [hrow i hi, sum_map_range_ite_mem _ _ i L hi,
      Nat.cast_sub (by omega : 1 ≤ L)]
    push_cast
    ring

/-- C3 counterexample: with `L = 3` labels and prior `p = 1/10`, the first
row of the transition matrix sums to `11/10`, not 1 as the claim states. -/
theorem C3_counterexample :
    ((transition_matrix_scalar 3 (1 / 10)).getD 0 []).sum = 11 / 10 ∧
    (11 / 10 : ℚ) ≠ 1 := by
  constructor
  · norm_num [transition_matrix_scalar, List.range_succ]
  · norm_num

/-- C3 witness: the amended row-sum formula evaluated at `L = 3`,
`p = 1/10`. -/
theorem C3_witness :
    ((transition_matrix_scalar 3 (1 / 10)).getD 0 []).sum =
      1 + ((3 : ℚ) - 2) * (1 / 10) :=
  (C3_transition_matrix_scalar 3 (1 / 10) (by norm_num) (by norm_num)
    (by norm_num)).2.2.2.2 0 (by norm_num)

/-! ### C6: a caller-supplied transition matrix -/

/-- C6 (corrected): a caller-supplied transition matrix is used verbatim —
no check of any kind, shape included, is performed on it. -/
theorem C6_supplied_matrix_used_verbatim (L : ℕ) (m : Mat) :
    transitionMatrixSelect L (Sum.inl m) = m := rfl

/-- C6 counterexample: a 2×2 matrix supplied with `n_labels = 3` is
accepted and used as-is, so the claimed L×L validation does not exist. -/
theorem C6_counterexample :
    transitionMatrixSelect 3 (Sum.inl [[1, 0], [0, 1]]) = [[1, 0], [0, 1]] ∧
    ([[1, 0], [0, 1]] : Mat).length = 2 ∧ (2 : ℕ) ≠ 3 := by
  refine ⟨rfl, rfl, by decide⟩

/-! ### C4: the per-step tile read -/

/-- C4 (code bug): the per-step window read asks for `bands2open =
self.n_jobs` band planes, not the `n_labels` class bands. On a 3-band
image run with `n_jobs = 2` the loaded slab has 2 planes where the
`n_labels = 3`-plane `d_stack[step]` slot expects 3. The NaN/Inf
replacement half of the claim does hold: the non-finite value in band 2
comes back as 0. -/
theorem C4_reads_njobs_bands :
    exImg.length = 3 ∧
    loadStepSlab exImg 2 = [[[1]], [[0]]] ∧
    (loadStepSlab exImg 2).length = 2 ∧
    (loadStepSlab exImg 3).length = 3 ∧
    loadStepSlab exImg 3 = [[[1]], [[0]], [[2]]] ∧
    cleanValue none = 0 := by
  refine ⟨rfl, by decide, rfl, rfl, by decide, rfl⟩

/-! ### C5 and C7: the per-tile event trace -/

/-- C5 (confirmed): a tile whose block tracker file exists is skipped
entirely (empty trace — nothing read, smoothed, or written), and when the
tracker is created it is the final event of the tile's trace, strictly
after every band write of the tile. -/
theorem C5_marker_skip_and_order (ns nl : ℕ) (bm : ℚ) (ac : Bool) :
    processTile true ns nl bm ac = [] ∧
    (TileEvent.createMarker ∈ processTile false ns nl bm ac →
      ∃ pre, processTile false ns nl bm ac = pre ++ [TileEvent.createMarker] ∧
        TileEvent.createMarker ∉ pre ∧ ∀ e ∈ tileWrites ac ns nl, e ∈ pre) := by
  constructor
  · simp [processTile]
  · intro hmem
    by_cases hbm : bm = 0
    · exfalso
      simp [processTile, hbm] at hmem
    · refine ⟨(List.range ns).map TileEvent.readStep ++
        TileEvent.smoothPixels :: tileWrites ac ns nl, ?_, ?_, ?_⟩
      · simp [processTile, hbm]
      · intro hpre
        rcases List.mem_append.mp hpre with hl | hr
        · rcases List.mem_map.mp hl with ⟨s, _, hs⟩
          exact TileEvent.noConfusion hs
        · rcases List.mem_cons.mp hr with hsm | hw
          · exact TileEvent.noConfusion hsm
          · rcases List.mem_flatMap.mp hw with ⟨s, _, hin⟩
            by_cases hac : ac = true
            · simp [hac] at hin
            · simp [Bool.not_eq_true] at hac
              simp [hac] at hin
      · intro e he
        exact List.mem_append_right _ (List.mem_cons_of_mem _ he)

/-- C5 witness: a concrete nonzero 2-step, 3-label tile trace ends in the
marker creation, after all six band writes; a marked tile's trace is
empty. -/
theorem C5_witness :
    processTile true 2 3 1 false = [] ∧
    (∃ pre, processTile false 2 3 1 false = pre ++ [TileEvent.createMarker] ∧
      TileEvent.createMarker ∉ pre ∧ ∀ e ∈ tileWrites false 2 3, e ∈ pre) :=
  ⟨(C5_marker_skip_and_order 2 3 1 false).1,
    (C5_marker_skip_and_order 2 3 1 false).2 (by decide)⟩

/-- C7 (confirmed): a tile whose accumulated `block_max` is 0 only reads
its windows — no band write happens and no block tracker file is
created, so the loop moves on to the next tile. -/
theorem C7_zero_tile_skips_writes (ns nl : ℕ) (bm : ℚ) (ac : Bool) (h : bm = 0) :
    processTile false ns nl bm ac = (List.range ns).map TileEvent.readStep ∧
    (∀ s b, TileEvent.writeBand s b ∉ processTile false ns nl bm ac) ∧
    TileEvent.createMarker ∉ processTile false ns nl bm ac := by
  subst h
  refine ⟨by simp [processTile], ?_, ?_⟩
  · intro s b hmem
    simp [processTile] at hmem
  · intro hmem
    simp [processTile] at hmem

/-- C7 witness: the concrete 2-step all-zero tile trace is just the two
window reads. -/
theorem C7_witness :
    processTile false 2 3 0 false = (List.range 2).map TileEvent.readStep :=
  (C7_zero_tile_skips_writes 2 3 0 false rfl).1

/-! ### C8, C9, C10: class assignment of the smoothed belief -/

lemma applyClassListAux_spec (a : ℕ) :
    ∀ (cs : List ℤ) (i : ℕ) (acc : ℤ),
      applyClassListAux a cs i acc =
        if i ≤ a ∧ a < i + cs.length then (cs.getD (a - i) 0) % 256 else acc
  | [], i, acc => by
    rw [applyClassListAux]
    have hcond : ¬(i ≤ a ∧ a < i + ([] : List ℤ).length) := by
      simp only [List.length_nil, Nat.add_zero]
      omega
    rw [if_neg hcond]
  | c :: cs, i, acc => by
    rw [applyClassListAux, applyClassListAux_spec a cs (i + 1)]
    by_cases hai : a = i
    · subst hai
      have h1 : ¬(a + 1 ≤ a ∧ a < a + 1 + cs.length) := by omega
      have h2 : a ≤ a ∧ a < a + (c :: cs).length := by simp
      rw [if_neg h1, if_pos h2]
      simp
    · by_cases h : i + 1 ≤ a ∧ a < i + 1 + cs.length
      · have h2 : i ≤ a ∧ a < i + (c :: cs).length := by
          simp only [List.length_cons]
          omega
        rw [if_pos h, if_pos h2]
        have hsub : a - i = (a - (i + 1)) + 1 := by omega
        rw [hsub, List.getD_cons_succ]
      · have h2 : ¬(i ≤ a ∧ a < i + (c :: cs).length) := by
          simp only [List.length_cons]
          omega
        rw [if_neg h, if_neg h2, if_neg hai]

lemma applyClassList_getD (cl : List ℤ) (a : ℕ) (h : a < cl.length) :
    applyClassList cl a = (cl.getD a 0) % 256 := by
  rw [applyClassList, applyClassListAux_spec]
  have : 0 ≤ a ∧ a < 0 + cl.length := by omega
  rw [if_pos this]
  simp

lemma argmaxAux_lt :
    ∀ (xs : List ℚ) (i best : ℕ) (bv : ℚ), best < i →
      argmaxAux xs i best bv < i + xs.length
  | [], i, best, bv, h => by simpa using h
  | x :: xs, i, best, bv, h => by
    rw [argmaxAux]
    by_cases hlt : bv < x
    · rw [if_pos hlt]
      have := argmaxAux_lt xs (i + 1) i x (by omega)
      simpa [Nat.add_comm, Nat.add_left_comm] using this
    · rw [if_neg hlt]
      have := argmaxAux_lt xs (i + 1) best bv (by omega)
      simpa [Nat.add_comm, Nat.add_left_comm] using this

lemma np_argmax_lt (v : List ℚ) (h : v ≠ []) : np_argmax v < v.length := by
  match v with
  | x :: xs =>
    rw [np_argmax]
    have := argmaxAux_lt xs 1 0 x (by omega)
    simpa [Nat.add_comm] using this

/-- C8 (corrected): with class assignment on and a `class_list` supplied,
the byte written for a pixel is `class_list[argmax]` reduced modulo 256
(the `predictions` array is uint8); it equals `class_list[argmax]` itself
exactly when that class code already fits in a byte. -/
theorem C8_class_assignment (cl : List ℤ) (belief : List ℚ)
    (h : np_argmax belief < cl.length) :
    assignedValue (some cl) belief = (cl.getD (np_argmax belief) 0) % 256 ∧
    (0 ≤ cl.getD (np_argmax belief) 0 → cl.getD (np_argmax belief) 0 < 256 →
      assignedValue (some cl) belief = cl.getD (np_argmax belief) 0) := by
  have hmain : assignedValue (some cl) belief = (cl.getD (np_argmax belief) 0) % 256 :=
    applyClassList_getD cl (np_argmax belief) h
  exact ⟨hmain, fun h0 h256 => by rw [hmain, Int.emod_eq_of_lt h0 h256]⟩

/-- C8 counterexample: `class_list = [300, 1]` with a pixel whose argmax
label is 0 writes `300 % 256 = 44`, not the claimed `class_list[0] = 300`. -/
theorem C8_counterexample :
    np_argmax [1, 0] = 0 ∧
    assignedValue (some [300, 1]) [1, 0] = 44 ∧ (44 : ℤ) ≠ 300 := by
  refine ⟨by decide, by decide, by decide⟩

/-- C8 witness: in-range class codes come through the uint8 array intact. -/
theorem C8_witness :
    assignedValue (some [7, 2, 5]) [0, 1, 0] =
      ([7, 2, 5] : List ℤ).getD (np_argmax [0, 1, 0]) 0 :=
  (C8_class_assignment [7, 2, 5] [0, 1, 0] (by decide)).2 (by decide) (by decide)

/-- C9 (confirmed): the remapped class codes live in a uint8 array, so the
written code is the `class_list` entry reduced modulo 256 — always in
`[0, 255]`, with out-of-range codes silently wrapped, never rejected. -/
theorem C9_uint8_wrap (cl : List ℤ) (belief : List ℚ)
    (h : np_argmax belief < cl.length) :
    assignedValue (some cl) belief = (cl.getD (np_argmax belief) 0) % 256 ∧
    0 ≤ assignedValue (some cl) belief ∧
    assignedValue (some cl) belief < 256 := by
  have hmain : assignedValue (some cl) belief = (cl.getD (np_argmax belief) 0) % 256 :=
    applyClassList_getD cl (np_argmax belief) h
  refine ⟨hmain, ?_, ?_⟩
  · rw [hmain]
    exact Int.emod_nonneg _ (by norm_num)
  · rw [hmain]
    exact Int.emod_lt_of_pos _ (by norm_num)

/-- C9 witness: the out-of-byte class code 500 is wrapped to 244. -/
theorem C9_witness :
    assignedValue (some [500, 2]) [1, 0] =
      (([500, 2] : List ℤ).getD (np_argmax [1, 0]) 0) % 256 ∧
    0 ≤ assignedValue (some [500, 2]) [1, 0] ∧
    assignedValue (some [500, 2]) [1, 0] < 256 :=
  C9_uint8_wrap [500, 2] [1, 0] (by decide)

/-- C10 (confirmed): when `class_list` is not a Python `list` the raw
argmax label index itself is written, and for a pixel with `n_labels`
belief entries that index lies in `0..n_labels-1`. -/
theorem C10_no_list_no_remap (belief : List ℚ) (h : belief ≠ []) :
    assignedValue none belief = (np_argmax belief : ℤ) ∧
    np_argmax belief < belief.length :=
  ⟨rfl, np_argmax_lt belief h⟩

/-- C10 witness: with no class list, the pixel `[0, 1, 0]` writes its raw
argmax index 1, inside `0..2`. -/
theorem C10_witness :
    assignedValue none [0, 1, 0] = (np_argmax [0, 1, 0] : ℤ) ∧
    np_argmax [0, 1, 0] < ([0, 1, 0] : List ℚ).length :=
  C10_no_list_no_remap [0, 1, 0] (by decide)

/-! ### C1 and C2: the forward-backward smoother -/

lemma headI_eq_getD_zero (l : List Vec) : l.headI = l.getD 0 [] := by
  cases l <;> rfl

lemma normalize_of_sum_pos (v : Vec) (h : 0 < v.sum) :
    normalize v = v.map (fun x => x / v.sum) := by
  simp [normalize, h]

lemma normalize_of_sum_nonpos (v : Vec) (h : v.sum ≤ 0) : normalize v = v := by
  simp [normalize, not_lt.mpr h]

lemma rowNormalizeSafe_of_sum_zero (v : Vec) (h : v.sum = 0) :
    rowNormalizeSafe v = v := by
  simp [rowNormalizeSafe, h]

lemma rowNormalizeSafe_of_sum_ne (v : Vec) (h : v.sum ≠ 0) :
    rowNormalizeSafe v = v.map (fun x => x / v.sum) := by
  simp [rowNormalizeSafe, h]

lemma forwardAux_length (Mt : Mat) (f : Vec) (rs : List Vec) :
    (forwardAux Mt f rs).length = rs.length + 1 := by
  induction rs generalizing f with
  | nil => rfl
  | cons r rs ih => simp [forwardAux, ih]

lemma forwardAux_getD_zero (Mt : Mat) (f : Vec) (rs : List Vec) :
    (forwardAux Mt f rs).getD 0 [] = f := by
  cases rs <;> rfl

lemma forwardAux_getD_succ (Mt : Mat) :
    ∀ (rs : List Vec) (f : Vec) (t : ℕ), t < rs.length →
      (forwardAux Mt f rs).getD (t + 1) [] =
        normalize (hadamard (rs.getD t [])
          (matVec Mt ((forwardAux Mt f rs).getD t [])))
  | [], f, t, h => by simp at h
  | r :: rs, f, 0, h => by
    rw [forwardAux, List.getD_cons_succ, List.getD_cons_zero,
      forwardAux_getD_zero, List.getD_cons_zero]
  | r :: rs, f, t + 1, h => by
    rw [forwardAux, List.getD_cons_succ, List.getD_cons_succ,
      List.getD_cons_succ]
    exact forwardAux_getD_succ Mt rs _ t (by simpa using h)

lemma backwardList_length (M : Mat) (L : ℕ) :
    ∀ ts : List Vec, ts ≠ [] → (backwardList M L ts).length = ts.length
  | [], h => absurd rfl h
  | [r], _ => rfl
  | r0 :: r1 :: rs, _ => by
    have ih := backwardList_length M L (r1 :: rs) (by simp)
    rw [backwardList]
    simpa using ih

lemma backwardList_getD_last (M : Mat) (L : ℕ) :
    ∀ ts : List Vec, ts ≠ [] →
      (backwardList M L ts).getD (ts.length - 1) [] = List.replicate L 1
  | [], h => absurd rfl h
  | [r], _ => rfl
  | r0 :: r1 :: rs, _ => by
    have ih := backwardList_getD_last M L (r1 :: rs) (by simp)
    rw [backwardList]
    have hlen : (r0 :: r1 :: rs).length - 1 = ((r1 :: rs).length - 1) + 1 := by
      simp
    rw [hlen, List.getD_cons_succ]
    exact ih

lemma backwardList_getD_step (M : Mat) (L : ℕ) :
    ∀ (ts : List Vec) (t : ℕ), t + 1 < ts.length →
      (backwardList M L ts).getD t [] =
        normalize (matVec M (hadamard (ts.getD (t + 1) [])
          ((backwardList M L ts).getD (t + 1) [])))
  | [], t, h => by simp at h
  | [r], t, h => by simp at h
  | r0 :: r1 :: rs, 0, h => by
    simp only [backwardList, List.getD_cons_zero, List.getD_cons_succ,
      headI_eq_getD_zero]
  | r0 :: r1 :: rs, t + 1, h => by
    rw [backwardList, List.getD_cons_succ, List.getD_cons_succ,
      List.getD_cons_succ]
    exact backwardList_getD_step M L (r1 :: rs) t (by simpa using h)

lemma foldl_qmax_zero : ∀ l : List ℚ, (∀ x ∈ l, x = 0) → l.foldl qmax 0 = 0
  | [], _ => rfl
  | x :: xs, h => by
    have hx : x = 0 := h x (by simp)
    have hq : qmax 0 x = 0 := by simp [qmax, hx]
    rw [List.foldl_cons, hq]
    exact foldl_qmax_zero xs (fun y hy => h y (by simp [hy]))

lemma entriesMax_of_all_zero (ts : List Vec) (h : ∀ r ∈ ts, ∀ x ∈ r, x = 0) :
    entriesMax ts = 0 := by
  have hall : ∀ x ∈ ts.flatten, x = 0 := by
    intro x hx
    rcases List.mem_flatten.mp hx with ⟨r, hr, hxr⟩
    exact h r hr x hxr
  rw [entriesMax]
  cases hf : ts.flatten with
  | nil => rfl
  | cons x xs =>
    have hx : x = 0 := hall x (by rw [hf]; exact List.mem_cons_self x xs)
    have hxs : ∀ y ∈ xs, y = 0 := fun y hy =>
      hall y (by rw [hf]; exact List.mem_cons_of_mem x hy)
    rw [hx]
    exact foldl_qmax_zero xs hxs

/-- C1 (confirmed): for a pixel time series with a positive maximum entry
the smoother follows the claimed recurrences exactly — `forward[0]` is the
first emission row, later forward messages multiply the emission row with
`Mᵗ·forward[t-1]` and normalize, `backward` starts from the all-ones
vector and recurses with `M·(emission ⊙ backward)`, the returned value is
the (transposed) elementwise product `forward ⊙ backward` with each row
divided by its own sum unless that sum is exactly zero, and `normalize`
divides by the sum only when the sum is positive. -/
theorem C1_forward_backward_recurrences (M : Mat) (L : ℕ) (ts : List Vec)
    (hne : ts ≠ []) (hrect : ∀ r ∈ ts, r.length = L)
    (hmax : 0 < entriesMax ts) :
    (forwardList (transposeM M) ts).length = ts.length ∧
    (backwardList M L ts).length = ts.length ∧
    (forwardList (transposeM M) ts).getD 0 [] = ts.getD 0 [] ∧
    (∀ t : ℕ, t + 1 < ts.length →
      (forwardList (transposeM M) ts).getD (t + 1) [] =
        normalize (hadamard (ts.getD (t + 1) [])
          (matVec (transposeM M) ((forwardList (transposeM M) ts).getD t [])))) ∧
    (backwardList M L ts).getD (ts.length - 1) [] = List.replicate L 1 ∧
    (∀ t : ℕ, t + 1 < ts.length →
      (backwardList M L ts).getD t [] =
        normalize (matVec M (hadamard (ts.getD (t + 1) [])
          ((backwardList M L ts).getD (t + 1) [])))) ∧
    forward_backward M L ts =
      transposeM ((List.zipWith hadamard (forwardList (transposeM M) ts)
        (backwardList M L ts)).map rowNormalizeSafe) ∧
    (∀ v : Vec, 0 < v.sum → normalize v = v.map (fun x => x / v.sum)) ∧
    (∀ v : Vec, v.sum ≤ 0 → normalize v = v) ∧
    (∀ v : Vec, v.sum = 0 → rowNormalizeSafe v = v) ∧
    (∀ v : Vec, v.sum ≠ 0 → rowNormalizeSafe v = v.map (fun x => x / v.sum)) := by
  obtain ⟨r, rs, rfl⟩ := List.exists_cons_of_ne_nil hne
  refine ⟨?_, backwardList_length M L _ hne, ?_, ?_, backwardList_getD_last M L _ hne,
    backwardList_getD_step M L _, ?_, normalize_of_sum_pos, normalize_of_sum_nonpos,
    rowNormalizeSafe_of_sum_zero, rowNormalizeSafe_of_sum_ne⟩
  · rw [forwardList]
    simp [forwardAux_length]
  · rw [forwardList, forwardAux_getD_zero, List.getD_cons_zero]
  · intro t ht
    rw [forwardList, List.getD_cons_succ]
    exact forwardAux_getD_succ (transposeM M) rs r t (by simpa using ht)
  · rw [forward_backward, if_neg hmax.ne']

/-- C1 witness: the recurrence-shaped return value at the concrete
2-step, 3-label series `exTs` with matrix `exM`. -/
theorem C1_witness :
    forward_backward exM 3 exTs =
      transposeM ((List.zipWith hadamard (forwardList (transposeM exM) exTs)
        (backwardList exM 3 exTs)).map rowNormalizeSafe) :=
  (C1_forward_backward_recurrences exM 3 exTs (by decide) (by decide)
    (by decide)).2.2.2.2.2.2.1

/-- C2 (confirmed): an all-zero pixel time series comes back unchanged (as
its transpose, which the smoother applies to every return value) — the
no-data guard returns before the forward and backward recursions run. -/
theorem C2_all_zero_passthrough (M : Mat) (L : ℕ) (ts : List Vec)
    (h : ∀ r ∈ ts, ∀ x ∈ r, x = 0) :
    forward_backward M L ts = transposeM ts := by
  rw [forward_backward, if_pos (entriesMax_of_all_zero ts h)]

/-- C2 witness: the concrete all-zero series `zeroTs` passes through. -/
theorem C2_witness : forward_backward exM 3 zeroTs = transposeM zeroTs :=
  C2_all_zero_passthrough exM 3 zeroTs (by decide)

end Mtlchmm
